import Mathlib

/-!
Verification of the guest virtual-address-space manager in
src/app/src/main/cpp/skyline/kernel/memory.cpp (skyline kernel::MemoryManager).

The embedding models u64 / pointer values as natural numbers below 2^64 and
performs every arithmetic operation that the C++ code performs on u64 or u8*
values through explicit wrapping operations (add64, sub64), so that overflow
behaviour is represented faithfully.  Chunk maps are modelled as lists of
chunk descriptors ordered by start address, exactly the contents of the
std::vector (ordered by ptr) that the C++ code maintains.
-/

namespace Skyline

/-- Word size modulus for u64 / pointer arithmetic. -/
def M64 : Nat := 2 ^ 64

/-- Wrapping u64 addition, as performed by C++ on u64 and pointer values. -/
def add64 (a b : Nat) : Nat := (a + b) % M64

/-- Wrapping u64 subtraction (operands assumed below 2^64). -/
def sub64 (a b : Nat) : Nat := (a + M64 - b) % M64

/-- util::AlignUp with a power-of-two alignment, on u64: rounds up to the next
multiple of the alignment, wrapping modulo 2^64 (the C++ computes
(value + align - 1) and masks the low bits). -/
def alignUp64 (x a : Nat) : Nat := (((x + a - 1) % M64) / a) * a

/-- Modelled from the spec: memory::states::Unmapped (declared in memory.h,
which is not under src/).  States are opaque tags; only equality on them is
used by memory.cpp, so they are represented as naturals, Unmapped being 0. -/
def statesUnmapped : Nat := 0

/-- memory::ChunkDescriptor (declared in memory.h, not under src/; its fields
ptr, size, state, permission, attributes are all visible from their uses in
memory.cpp).  ptr is a u8* pointer value, size a u64; state, permission and
attributes are opaque classification tags represented as naturals. -/
structure ChunkDescriptor where
  ptr : Nat
  size : Nat
  state : Nat
  permission : Nat
  attributes : Nat
deriving DecidableEq, Repr

/-- Modelled from the spec: ChunkDescriptor::IsCompatible (declared in
memory.h, not under src/).  The spec states it holds iff state, permission
and attributes are all equal. -/
def isCompatible (a b : ChunkDescriptor) : Bool :=
  a.state == b.state && a.permission == b.permission && a.attributes == b.attributes

/-- memory::Region: an (address, size) pair denoting a half-open range. -/
structure Region where
  address : Nat
  size : Nat
deriving DecidableEq, Repr

/-- Position returned by std::upper_bound over the chunk vector with the
comparator (ptr, chunk) -> ptr < chunk.ptr: on a list sorted by ptr this is
the index of the first chunk whose ptr is strictly greater than p.  The
linear recursion below computes exactly that index on sorted lists, which is
the only way memory.cpp ever calls it. -/
def upperBound (chunks : List ChunkDescriptor) (p : Nat) : Nat :=
  match chunks with
  | [] => 0
  | c :: rest => if p < c.ptr then 0 else upperBound rest p + 1

/-- Lines 113-117 of memory.cpp: after the erase, if the chunk at the
insertion point starts below the end of the new chunk, shrink it from the
left so that it starts at that end. -/
def truncateUpper (b : Nat) (back : List ChunkDescriptor) : List ChunkDescriptor :=
  match back with
  | [] => []
  | u :: rest =>
    if u.ptr < b then { u with ptr := b, size := sub64 (add64 u.ptr u.size) b } :: rest
    else u :: rest

/-- Lines 119-148 of memory.cpp: the case analysis around lower (the chunk
immediately before the insertion point) and the possibly present upper chunk
(head of back).  Returns the replacement for lower :: back. -/
def insertCore (lower : ChunkDescriptor) (back : List ChunkDescriptor)
    (c : ChunkDescriptor) : List ChunkDescriptor :=
  let b := add64 c.ptr c.size
  if lower.ptr = c.ptr ∧ lower.size = c.size then
    -- lines 120-123: exact match, retag lower in place
    { lower with state := c.state, permission := c.permission,
                 attributes := c.attributes } :: back
  else if b < add64 lower.ptr lower.size then
    -- lines 124-136: lower extends past the end of c, split it
    let ext : ChunkDescriptor :=
      { lower with ptr := b, size := sub64 (add64 lower.ptr lower.size) b }
    if sub64 c.ptr lower.ptr ≠ 0 then
      { lower with size := sub64 c.ptr lower.ptr } :: c :: ext :: back
    else
      c :: ext :: back
  else if isCompatible c lower then
    -- lines 137-138: merge leftward into lower
    { lower with
      size := sub64 (max (add64 lower.ptr lower.size) (add64 c.ptr c.size)) lower.ptr }
      :: back
  else
    -- lines 139-148
    let lower0 := if c.ptr < add64 lower.ptr lower.size then
        { lower with size := sub64 c.ptr lower.ptr } else lower
    match back with
    | u :: rest =>
      if isCompatible c u then
        lower0 :: { u with ptr := c.ptr, size := add64 c.size u.size } :: rest
      else
        lower0 :: c :: u :: rest
    | [] => [lower0, c]

/-- Splits a list into everything before its last element and the last
element itself; none for the empty list.  This models std::prev(upper)
together with the elements before it. -/
def splitLast (l : List ChunkDescriptor) :
    Option (List ChunkDescriptor × ChunkDescriptor) :=
  match l with
  | [] => none
  | [x] => some ([], x)
  | x :: y :: xs =>
    match splitLast (y :: xs) with
    | some (pre, lastc) => some (x :: pre, lastc)
    | none => none

/-- MemoryManager::InsertChunk (memory.cpp lines 105-149).  The mutex is
irrelevant to the functional behaviour.  The C++ throw is modelled by
Except.error (which also models that the map is left unchanged, since the
throw happens before any mutation).  The erase on line 112 removes the
chunks between the first chunk starting strictly after c.ptr and the first
chunk starting strictly after c.ptr + c.size; lower is the chunk just before
the erased range (std::prev of the post-erase upper). -/
def insertChunk (chunks : List ChunkDescriptor) (c : ChunkDescriptor) :
    Except String (List ChunkDescriptor) :=
  let i := upperBound chunks c.ptr
  if i = 0 then
    .error "InsertChunk: Chunk inserted outside address space"
  else
    let rest := chunks.drop i
    let back := truncateUpper (add64 c.ptr c.size)
      (rest.drop (upperBound rest (add64 c.ptr c.size)))
    match splitLast (chunks.take i) with
    | some (pre, lower) => .ok (pre ++ insertCore lower back c)
    | none => .error "InsertChunk: unreachable"  -- take i is nonempty since i is not 0

/-- MemoryManager::Get (memory.cpp lines 151-160): find the first chunk whose
ptr exceeds p, step back one, and return a copy of it when its range covers
p; otherwise nullopt. -/
def get (chunks : List ChunkDescriptor) (p : Nat) : Option ChunkDescriptor :=
  let i := upperBound chunks p
  if i = 0 then none
  else
    match splitLast (chunks.take i) with
    | some (_, ch) => if p < add64 ch.ptr ch.size then some ch else none
    | none => none

/-- memory::AddressSpaceType (declared in memory.h; the three enumerators are
visible from the switch in memory.cpp). -/
inductive AddressSpaceType where
  | addressSpace32Bit
  | addressSpace36Bit
  | addressSpace39Bit
deriving DecidableEq, Repr

/-- The switch on lines 11-31 of memory.cpp: returns (addressSpace.size,
base.size) for the chosen width, or the thrown message. -/
def vmmSizes (t : AddressSpaceType) : Except String (Nat × Nat) :=
  match t with
  | .addressSpace32Bit => .error "32-bit address spaces are not supported"
  | .addressSpace36Bit =>
      .ok (2 ^ 36, 0x78000000 + 0x180000000 + 0x180000000 + 0x180000000)
  | .addressSpace39Bit =>
      .ok (2 ^ 39,
        0x78000000 + 0x1000000000 + 0x180000000 + 0x80000000 + 0x1000000000)

/-- Modelled from the spec: the host mapping table read from /proc/self/maps
is abstracted as the list of (start, end) address pairs of its lines in file
order (the spec describes it as an ascending list of start/end pairs consumed
line by line; the hex parsing by util::HexStringToInt is not under src/).
This function is the do-while scan on lines 35-47 of memory.cpp.  start and
alignedStart are the loop variables (end of the previous mapping and its
2 MiB aligned-up value); both start as 0.  Some a means the scan assigned
base.address = a and broke out; none means the scan ended with base.address
still 0. -/
def carveoutScan (baseSize asSize : Nat) (maps : List (Nat × Nat))
    (start alignedStart : Nat) : Option Nat :=
  match maps with
  | [] => none
  | (mStart, mEnd) :: restMaps =>
    -- line 38: end - start > base.size + (alignedStart - start)
    if add64 baseSize (sub64 alignedStart start) < sub64 mStart start then
      some alignedStart
    else
      let start1 := mEnd
      let aligned1 := alignUp64 start1 (2 ^ 21)
      -- line 45: alignedStart + base.size > addressSpace.size
      if asSize < add64 aligned1 baseSize then none
      else carveoutScan baseSize asSize restMaps start1 aligned1

/-- Result of a successful InitializeVmm: the two regions it assigns and the
initial chunk list. -/
structure VmmResult where
  addressSpace : Region
  base : Region
  chunks : List ChunkDescriptor
deriving DecidableEq, Repr

/-- MemoryManager::InitializeVmm (memory.cpp lines 10-59).  The mmap
reservation is a host side effect with no bearing on the tracked state.  The
permission and attributes of the initial chunk are value-initialized in the
C++ aggregate initializer, modelled as 0.  Note that the initial chunk spans
addressSpace (address 0), not base. -/
def initializeVmm (t : AddressSpaceType) (maps : List (Nat × Nat)) :
    Except String VmmResult :=
  match vmmSizes t with
  | .error e => .error e
  | .ok (asSize, bSize) =>
    let baseAddress := (carveoutScan bSize asSize maps 0 0).getD 0
    if baseAddress = 0 then
      .error "Cannot find a suitable carveout for the guest address space"
    else
      .ok { addressSpace := ⟨0, asSize⟩
            base := ⟨baseAddress, bSize⟩
            chunks := [⟨0, asSize, statesUnmapped, 0, 0⟩] }

/-- The five named sub-region members of MemoryManager mutated by
InitializeRegions.  The field named alias in the C++ is called aliasRegion
here because alias is a reserved command name in Lean. -/
structure RegionsState where
  code : Region
  aliasRegion : Region
  heap : Region
  stack : Region
  tlsIo : Region
deriving DecidableEq, Repr

/-- All-zero region state before InitializeRegions runs. -/
def regionsInit : RegionsState := ⟨⟨0, 0⟩, ⟨0, 0⟩, ⟨0, 0⟩, ⟨0, 0⟩, ⟨0, 0⟩⟩

/-- MemoryManager::InitializeRegions (memory.cpp lines 61-103).  address is
the integer value of the codeStart pointer.  The function mutates the region
members field by field and may throw in the middle, so it returns the error
message (if any) together with the member state at the point of return,
making partially assigned layouts observable exactly as in the C++. -/
def initializeRegions (st : RegionsState) (asSize baseAddress address size : Nat) :
    Option String × RegionsState :=
  if asSize = 2 ^ 36 then
    let st := { st with code := ⟨baseAddress, 0x78000000⟩ }
    -- line 67: code.address > address || (code.size - (address - code.address)) < size
    if address < st.code.address ∨
        sub64 st.code.size (sub64 address st.code.address) < size then
      (some "Code mapping larger than 36-bit code region", st)
    else
      let st := { st with aliasRegion := ⟨add64 st.code.address st.code.size, 0x180000000⟩ }
      let st := { st with stack := ⟨st.aliasRegion.address, 0x180000000⟩ }
      let st := { st with heap := ⟨add64 st.aliasRegion.address st.aliasRegion.size, 0x180000000⟩ }
      let st := { st with tlsIo := ⟨st.code.address, 0⟩ }
      -- line 98: size > code.size
      if st.code.size < size then
        (some "Code region is smaller than mapped code size", st)
      else (none, st)
  else if asSize = 2 ^ 39 then
    let st := { st with code := ⟨baseAddress, 0x78000000⟩ }
    let st := { st with aliasRegion := ⟨add64 st.code.address st.code.size, 0x1000000000⟩ }
    let st := { st with heap := ⟨add64 st.aliasRegion.address st.aliasRegion.size, 0x180000000⟩ }
    let st := { st with stack := ⟨add64 st.heap.address st.heap.size, 0x80000000⟩ }
    let st := { st with tlsIo := ⟨add64 st.stack.address st.stack.size, 0x1000000000⟩ }
    if st.code.size < size then
      (some "Code region is smaller than mapped code size", st)
    else (none, st)
  else
    (some "Regions initialized without VMM initialization", st)

/-- Half-open ranges of two regions do not intersect. -/
def regionDisjoint (r1 r2 : Region) : Bool :=
  decide (r1.address + r1.size ≤ r2.address) || decide (r2.address + r2.size ≤ r1.address)

/-- Region r is contained in region b. -/
def regionContained (r b : Region) : Bool :=
  decide (b.address ≤ r.address) && decide (r.address + r.size ≤ b.address + b.size)

/-- The chunk list tiles the half-open range from lo to top: the first chunk
starts at lo, every chunk has nonzero size, each chunk ends where the next
begins, and the last chunk ends at top. -/
def tilesFrom (lo top : Nat) (chunks : List ChunkDescriptor) : Bool :=
  match chunks with
  | [] => lo == top
  | c :: rest => c.ptr == lo && !(c.size == 0) && tilesFrom (lo + c.size) top rest

/-- No two adjacent chunks are mutually compatible. -/
def maximalB (chunks : List ChunkDescriptor) : Bool :=
  match chunks with
  | c1 :: c2 :: rest => !(isCompatible c1 c2) && maximalB (c2 :: rest)
  | _ => true

/-- No existing chunk starts strictly inside (a, b]: this is exactly the
condition under which the erase on line 112 of memory.cpp removes nothing. -/
def noBoundaryIn (chunks : List ChunkDescriptor) (a b : Nat) : Bool :=
  chunks.all fun d => decide (d.ptr ≤ a ∨ b < d.ptr)

/-- States reachable from s0 by InsertChunk calls that succeed and are safe:
nonzero size, end within the span tracked by s0, and not erasing any chunk
that extends past the end of the inserted range. -/
inductive ReachableSafeFrom (top : Nat) (s0 : List ChunkDescriptor) :
    List ChunkDescriptor → Prop where
  | init : ReachableSafeFrom top s0 s0
  | step {s s' : List ChunkDescriptor} {c : ChunkDescriptor} :
      ReachableSafeFrom top s0 s →
      0 < c.size →
      c.ptr + c.size ≤ top →
      noBoundaryIn s c.ptr (c.ptr + c.size) = true →
      insertChunk s c = .ok s' →
      ReachableSafeFrom top s0 s'

/-- Exact (non-wrapping) 2 MiB align-up used by the first-fit description. -/
def alignUp2M (x : Nat) : Nat := ((x + 2 ^ 21 - 1) / 2 ^ 21) * 2 ^ 21

/-- First-fit selection over the gap list as the spec describes it, amended
with the strict inequality the code actually uses: scanning mappings in
ascending order, select the 2 MiB aligned-up end of the previous mapping as
soon as the gap up to the next mapping start is strictly larger than
baseSize; abort with none when the aligned candidate plus baseSize passes the
addressable ceiling; none when the table is exhausted. -/
def firstFit (baseSize asSize : Nat) (maps : List (Nat × Nat)) (prevEnd : Nat) :
    Option Nat :=
  match maps with
  | [] => none
  | (mStart, mEnd) :: restMaps =>
    if alignUp2M prevEnd + baseSize < mStart then some (alignUp2M prevEnd)
    else if asSize < alignUp2M mEnd + baseSize then none
    else firstFit baseSize asSize restMaps mEnd

/-- InitializeVmm as the amended spec describes it: pick the first-fit
aligned gap via firstFit; a missing gap, or a selected gap whose aligned
start is address 0, yields the fatal carveout error (success is detected
solely by base.address being nonzero); otherwise the produced state has
addressSpace at 0, base at the selected address, and a single Unmapped chunk
covering addressSpace. -/
def initializeVmmSpec (asSize bSize : Nat) (maps : List (Nat × Nat)) :
    Except String VmmResult :=
  match firstFit bSize asSize maps 0 with
  | some x =>
    if x = 0 then
      .error "Cannot find a suitable carveout for the guest address space"
    else
      .ok ⟨⟨0, asSize⟩, ⟨x, bSize⟩, [⟨0, asSize, statesUnmapped, 0, 0⟩]⟩
  | none => .error "Cannot find a suitable carveout for the guest address space"

/-- The mapping table is ascending, starting from prev: every entry starts at
or after the end of the previous one and ends at or after its own start. -/
def ascendingMapsB (prev : Nat) (maps : List (Nat × Nat)) : Bool :=
  match maps with
  | [] => true
  | (s, e) :: rest => decide (prev ≤ s) && decide (s ≤ e) && ascendingMapsB e rest

/-- All mapping addresses are at most 2^62 (far below the u64 wrap). -/
def mapsBoundedB (maps : List (Nat × Nat)) : Bool :=
  maps.all fun m => decide (m.1 ≤ 2 ^ 62) && decide (m.2 ≤ 2 ^ 62)

/-- Concrete host mapping table: one small mapping low, one mapping far away,
so that the gap after the first mapping is selected and base.address becomes
0x200000. -/
def mapsA : List (Nat × Nat) := [(0x1000, 0x200000), (0x600000000, 0x600001000)]

/-- Concrete host mapping table whose second gap (after the first mapping,
starting aligned at 0x200000 and running to 0x4F8200000) has exactly the
36-bit base size, and whose third gap is one byte larger than the base
size. -/
def mapsB : List (Nat × Nat) :=
  [(0x1000, 0x200000), (0x4F8200000, 0x4F8201000), (0x9F0400001, 0x9F0400002)]

/-- Concrete host mapping table whose first mapping starts beyond the 36-bit
base size, so the gap below it is suitable and its aligned start is 0. -/
def mapsC : List (Nat × Nat) := [(0x500000000, 0x500200000)]

/-- The chunk list produced by a 36-bit InitializeVmm. -/
def chunks36 : List ChunkDescriptor := [⟨0, 2 ^ 36, statesUnmapped, 0, 0⟩]

/-- The VmmResult produced by a 36-bit InitializeVmm over mapsA. -/
def vmmA : VmmResult := ⟨⟨0, 2 ^ 36⟩, ⟨0x200000, 0x4F8000000⟩, chunks36⟩

/-- The single-chunk map of the example scenario in the spec: one Unmapped
chunk covering 0x0 to 0x1000 (states: 0 is Unmapped, 1 stands for the Mapped
example state; permissions: 3 stands for RW). -/
def exampleMap0 : List ChunkDescriptor := [⟨0, 0x1000, 0, 0, 0⟩]

/-- First inserted chunk of the example: Mapped, RW, range 0x100 to 0x200. -/
def exampleIns1 : ChunkDescriptor := ⟨0x100, 0x100, 1, 3, 0⟩

/-- Second inserted chunk of the example: Mapped, RW, range 0x200 to 0x300. -/
def exampleIns2 : ChunkDescriptor := ⟨0x200, 0x100, 1, 3, 0⟩

/-- The map after inserting exampleIns1 into exampleMap0. -/
def exampleMap1 : List ChunkDescriptor :=
  [⟨0, 0x100, 0, 0, 0⟩, ⟨0x100, 0x100, 1, 3, 0⟩, ⟨0x200, 0xE00, 0, 0, 0⟩]

/-- The map the code actually produces after the second insert: four chunks,
the two middle ones adjacent and mutually compatible. -/
def exampleMap2 : List ChunkDescriptor :=
  [⟨0, 0x100, 0, 0, 0⟩, ⟨0x100, 0x100, 1, 3, 0⟩, ⟨0x200, 0x100, 1, 3, 0⟩,
   ⟨0x300, 0xD00, 0, 0, 0⟩]

/-- The map the spec example expects after the second insert: three chunks
with the two Mapped ranges merged. -/
def exampleMap2Spec : List ChunkDescriptor :=
  [⟨0, 0x100, 0, 0, 0⟩, ⟨0x100, 0x200, 1, 3, 0⟩, ⟨0x300, 0xD00, 0, 0, 0⟩]

/-- Member state after a successful 36-bit InitializeRegions with
base.address 0x200000. -/
def st36A : RegionsState :=
  ⟨⟨0x200000, 0x78000000⟩, ⟨0x78200000, 0x180000000⟩,
   ⟨0x1F8200000, 0x180000000⟩, ⟨0x78200000, 0x180000000⟩, ⟨0x200000, 0⟩⟩

/-- Member state after a successful 39-bit InitializeRegions with
base.address 0x200000. -/
def st39A : RegionsState :=
  ⟨⟨0x200000, 0x78000000⟩, ⟨0x78200000, 0x1000000000⟩,
   ⟨0x1078200000, 0x180000000⟩, ⟨0x11F8200000, 0x80000000⟩,
   ⟨0x1278200000, 0x1000000000⟩⟩

/-! ### Arithmetic helper lemmas -/

theorem M64_pos : 0 < M64 := by decide

theorem add64_eq {a b : Nat} (h : a + b < M64) : add64 a b = a + b := by
  unfold add64; exact Nat.mod_eq_of_lt h

theorem sub64_eq {a b : Nat} (hba : b ≤ a) (ha : a < M64) : sub64 a b = a - b := by
  unfold sub64
  have h1 : a + M64 - b = (a - b) + M64 := by omega
  rw [h1, Nat.add_mod_right]
  exact Nat.mod_eq_of_lt (by omega)

/-! ### upperBound lemmas -/

theorem upperBound_nil (p : Nat) : upperBound [] p = 0 := rfl

theorem upperBound_cons_lt {c : ChunkDescriptor} {p : Nat} (l : List ChunkDescriptor)
    (h : p < c.ptr) : upperBound (c :: l) p = 0 := by
  simp [upperBound, h]

theorem upperBound_cons_ge {c : ChunkDescriptor} {p : Nat} (l : List ChunkDescriptor)
    (h : c.ptr ≤ p) : upperBound (c :: l) p = upperBound l p + 1 := by
  simp [upperBound, Nat.not_lt.mpr h]

theorem upperBound_eq_length {l : List ChunkDescriptor} {p : Nat}
    (h : ∀ d ∈ l, d.ptr ≤ p) : upperBound l p = l.length := by
  induction l with
  | nil => rfl
  | cons d rest ih =>
    rw [upperBound_cons_ge rest (h d (by simp))]
    simp [ih fun d hd => h d (by simp [hd])]

/-! ### tilesFrom lemmas -/

theorem tilesFrom_nil_iff {lo top : Nat} : tilesFrom lo top [] = true ↔ lo = top := by
  simp [tilesFrom]

theorem tilesFrom_cons_iff {lo top : Nat} {c : ChunkDescriptor}
    {l : List ChunkDescriptor} :
    tilesFrom lo top (c :: l) = true ↔
      c.ptr = lo ∧ c.size ≠ 0 ∧ tilesFrom (lo + c.size) top l = true := by
  simp [tilesFrom, and_assoc]

theorem tilesFrom_le_top {lo top : Nat} {l : List ChunkDescriptor}
    (h : tilesFrom lo top l = true) : lo ≤ top := by
  induction l generalizing lo with
  | nil => exact le_of_eq (tilesFrom_nil_iff.mp h)
  | cons c rest ih =>
    obtain ⟨-, -, h3⟩ := tilesFrom_cons_iff.mp h
    exact le_trans (Nat.le_add_right lo c.size) (ih h3)

theorem tilesFrom_mem_lo {lo top : Nat} {l : List ChunkDescriptor}
    (h : tilesFrom lo top l = true) : ∀ d ∈ l, lo ≤ d.ptr := by
  induction l generalizing lo with
  | nil => intro d hd; cases hd
  | cons c rest ih =>
    obtain ⟨h1, -, h3⟩ := tilesFrom_cons_iff.mp h
    intro d hd
    rcases List.mem_cons.mp hd with rfl | hd
    · omega
    · exact le_trans (Nat.le_add_right lo c.size) (ih h3 d hd)

/-! ### splitLast lemmas -/

theorem splitLast_single (x : ChunkDescriptor) : splitLast [x] = some ([], x) := rfl

theorem splitLast_cons_cons (x y : ChunkDescriptor) (xs : List ChunkDescriptor) :
    splitLast (x :: y :: xs) =
      (splitLast (y :: xs)).map (fun pl => (x :: pl.1, pl.2)) := by
  cases hs : splitLast (y :: xs) with
  | none => simp [splitLast, hs]
  | some pl => cases pl with
    | mk pre lastc => simp [splitLast, hs]

theorem splitLast_some (x : ChunkDescriptor) (l : List ChunkDescriptor) :
    ∃ pre lastc, splitLast (x :: l) = some (pre, lastc) := by
  induction l generalizing x with
  | nil => exact ⟨[], x, rfl⟩
  | cons y ys ih =>
    obtain ⟨pre, lastc, h⟩ := ih y
    exact ⟨x :: pre, lastc, by rw [splitLast_cons_cons, h]; rfl⟩

theorem splitLast_concat (pre : List ChunkDescriptor) (x : ChunkDescriptor) :
    splitLast (pre ++ [x]) = some (pre, x) := by
  induction pre with
  | nil => rfl
  | cons y ys ih =>
    cases ys with
    | nil => rfl
    | cons z zs =>
      have hsplit : (y :: z :: zs) ++ [x] = y :: z :: (zs ++ [x]) := by simp
      rw [hsplit, splitLast_cons_cons,
        show splitLast (z :: (zs ++ [x])) = some (z :: zs, x) from ih]
      rfl

/-! ### insertChunk decomposition lemmas -/

/-- When another chunk d with d.ptr at most c.ptr sits in front of a list in
which the insertion point of c is not at the beginning, inserting into the
extended list just carries d along unchanged. -/
theorem insertChunk_cons {d : ChunkDescriptor} {rest : List ChunkDescriptor}
    {c : ChunkDescriptor} (h1 : d.ptr ≤ c.ptr) (h2 : upperBound rest c.ptr ≠ 0) :
    insertChunk (d :: rest) c = (insertChunk rest c).map (d :: ·) := by
  cases rest with
  | nil => exact absurd rfl h2
  | cons y ys =>
    have hyp : y.ptr ≤ c.ptr := by
      by_contra hlt
      exact h2 (upperBound_cons_lt ys (Nat.not_le.mp hlt))
    have hub1 : upperBound (d :: y :: ys) c.ptr = upperBound ys c.ptr + 1 + 1 := by
      rw [upperBound_cons_ge _ h1, upperBound_cons_ge _ hyp]
    have hub2 : upperBound (y :: ys) c.ptr = upperBound ys c.ptr + 1 :=
      upperBound_cons_ge _ hyp
    obtain ⟨pre, lastc, hsl⟩ := splitLast_some y (ys.take (upperBound ys c.ptr))
    unfold insertChunk
    rw [hub1, hub2]
    simp only [Nat.succ_ne_zero, if_false, List.take_succ_cons, List.drop_succ_cons,
      splitLast_cons_cons, hsl]
    rfl

/-- When the insertion point of c is right after the head chunk d, nothing is
erased, and no truncation applies, InsertChunk reduces to insertCore. -/
theorem insertChunk_head {d : ChunkDescriptor} {rest : List ChunkDescriptor}
    {c : ChunkDescriptor} (h1 : d.ptr ≤ c.ptr)
    (h2 : upperBound rest c.ptr = 0)
    (h3 : upperBound rest (add64 c.ptr c.size) = 0)
    (h4 : truncateUpper (add64 c.ptr c.size) rest = rest) :
    insertChunk (d :: rest) c = .ok (insertCore d rest c) := by
  unfold insertChunk
  rw [upperBound_cons_ge _ h1, h2]
  simp only [Nat.succ_ne_zero, if_false, List.take_succ_cons, List.take_zero,
    List.drop_succ_cons, List.drop_zero, h3, h4, splitLast_single]
  rfl

/-! ### Tiling preservation -/

theorem M64_val : M64 = 18446744073709551616 := by norm_num [M64]

theorem pow62_val : (2 : Nat) ^ 62 = 4611686018427387904 := by norm_num

theorem tilesFrom_of_eq {lo lo' top : Nat} {l : List ChunkDescriptor}
    (h : tilesFrom lo top l = true) (he : lo' = lo) : tilesFrom lo' top l = true :=
  he ▸ h

/-- Core case analysis of InsertChunk preserves the tiling invariant when the
inserted range lies inside the chunk d that covers its start (and, unless d
is the last chunk, strictly inside it, so that the erase removed nothing). -/
theorem insertCore_tiles {lo top : Nat} {d c : ChunkDescriptor}
    {rest : List ChunkDescriptor}
    (htop : top ≤ 2 ^ 62)
    (hd1 : d.ptr = lo) (hd2 : d.size ≠ 0)
    (hrest : tilesFrom (lo + d.size) top rest = true)
    (hc : c.size ≠ 0) (hlo : lo ≤ c.ptr) (hcov : c.ptr < lo + d.size)
    (hb : c.ptr + c.size ≤ top)
    (hsafe : rest = [] ∨ c.ptr + c.size < lo + d.size) :
    tilesFrom lo top (insertCore d rest c) = true := by
  have hM := M64_val
  have h62 := pow62_val
  have hetop : lo + d.size ≤ top := tilesFrom_le_top hrest
  have hbb : add64 c.ptr c.size = c.ptr + c.size := add64_eq (by omega)
  have hee : add64 d.ptr d.size = lo + d.size := by rw [hd1]; exact add64_eq (by omega)
  have hsub1 : sub64 c.ptr d.ptr = c.ptr - lo := by
    rw [hd1]; exact sub64_eq hlo (by omega)
  unfold insertCore
  simp only [hbb, hee, hsub1]
  by_cases hexact : d.ptr = c.ptr ∧ d.size = c.size
  · rw [if_pos hexact]
    refine tilesFrom_cons_iff.mpr ⟨by simp [hd1], by simp [hd2], ?_⟩
    simpa using hrest
  · rw [if_neg hexact]
    by_cases hsplit : c.ptr + c.size < lo + d.size
    · rw [if_pos hsplit]
      have hsub2 : sub64 (lo + d.size) (c.ptr + c.size) =
          (lo + d.size) - (c.ptr + c.size) := sub64_eq (by omega) (by omega)
      simp only [hsub2]
      by_cases hzero : c.ptr - lo ≠ 0
      · rw [if_pos hzero]
        refine tilesFrom_cons_iff.mpr ⟨by simp [hd1], by simpa using hzero, ?_⟩
        refine tilesFrom_cons_iff.mpr ⟨by simp <;> omega, hc, ?_⟩
        refine tilesFrom_cons_iff.mpr ⟨by simp <;> omega, by simp <;> omega, ?_⟩
        exact tilesFrom_of_eq hrest (by simp <;> omega)
      · rw [if_neg hzero]
        refine tilesFrom_cons_iff.mpr ⟨by omega, hc, ?_⟩
        refine tilesFrom_cons_iff.mpr ⟨by simp <;> omega, by simp <;> omega, ?_⟩
        exact tilesFrom_of_eq hrest (by simp <;> omega)
    · -- the end of c reaches or passes the end of d; safety forces rest = []
      have hrnil : rest = [] := by
        rcases hsafe with h | h
        · exact h
        · exact absurd h hsplit
      subst hrnil
      have htopeq : lo + d.size = top := tilesFrom_nil_iff.mp hrest
      have hbe : c.ptr + c.size = top := by omega
      rw [if_neg hsplit]
      by_cases hcompat : isCompatible c d
      · rw [if_pos hcompat]
        have hmax : max (lo + d.size) (c.ptr + c.size) = top := by omega
        have hsub3 : sub64 (max (lo + d.size) (c.ptr + c.size)) d.ptr = top - lo := by
          rw [hmax, hd1]; exact sub64_eq (by omega) (by omega)
        simp only [hsub3]
        refine tilesFrom_cons_iff.mpr ⟨by simp [hd1], by simp <;> omega, ?_⟩
        refine tilesFrom_nil_iff.mpr (by simp <;> omega)
      · rw [if_neg hcompat]
        rw [if_pos hcov]
        have hne : c.ptr ≠ lo := by
          intro heq
          exact hexact ⟨by omega, by omega⟩
        refine tilesFrom_cons_iff.mpr ⟨by simp [hd1], by simp <;> omega, ?_⟩
        refine tilesFrom_cons_iff.mpr ⟨by simp <;> omega, hc, ?_⟩
        refine tilesFrom_nil_iff.mpr (by simp <;> omega)

theorem noBoundaryIn_iff {l : List ChunkDescriptor} {a b : Nat} :
    noBoundaryIn l a b = true ↔ ∀ x ∈ l, x.ptr ≤ a ∨ b < x.ptr := by
  simp [noBoundaryIn]

/-- Preservation of the tiling invariant by any successful InsertChunk whose
range has nonzero size, ends within the tiled span, and whose interior and
right end touch no existing chunk boundary (the condition under which the
erase on line 112 of memory.cpp removes nothing). -/
theorem insertChunk_tiles {chunks : List ChunkDescriptor} {c : ChunkDescriptor}
    {lo top : Nat} {out : List ChunkDescriptor}
    (htop : top ≤ 2 ^ 62)
    (ht : tilesFrom lo top chunks = true)
    (hc : c.size ≠ 0)
    (hb : c.ptr + c.size ≤ top)
    (hnb : noBoundaryIn chunks c.ptr (c.ptr + c.size) = true)
    (hok : insertChunk chunks c = .ok out) :
    tilesFrom lo top out = true := by
  induction chunks generalizing lo out with
  | nil => exact absurd hok (by simp [insertChunk, upperBound])
  | cons d rest ih =>
    obtain ⟨hd1, hd2, hrest⟩ := tilesFrom_cons_iff.mp ht
    have hrlo : ∀ x ∈ rest, lo + d.size ≤ x.ptr := tilesFrom_mem_lo hrest
    by_cases hcase : c.ptr < lo + d.size
    · by_cases hlo : lo ≤ c.ptr
      · -- the head chunk d covers c.ptr and nothing is erased
        have hbgt : ∀ x ∈ rest, c.ptr + c.size < x.ptr := by
          intro x hx
          rcases noBoundaryIn_iff.mp hnb x (by simp [hx]) with h | h
          · have := hrlo x hx; omega
          · exact h
        have hb64 : add64 c.ptr c.size = c.ptr + c.size :=
          add64_eq (by rw [M64_val]; have := pow62_val; omega)
        have h2 : upperBound rest c.ptr = 0 := by
          cases rest with
          | nil => rfl
          | cons u us =>
            have := hrlo u (by simp)
            exact upperBound_cons_lt _ (by omega)
        have h3 : upperBound rest (add64 c.ptr c.size) = 0 := by
          rw [hb64]
          cases rest with
          | nil => rfl
          | cons u us => exact upperBound_cons_lt _ (hbgt u (by simp))
        have h4 : truncateUpper (add64 c.ptr c.size) rest = rest := by
          rw [hb64]
          cases rest with
          | nil => rfl
          | cons u us =>
            have := hbgt u (by simp)
            simp only [truncateUpper, if_neg (by omega : ¬ u.ptr < c.ptr + c.size)]
        rw [insertChunk_head (by omega) h2 h3 h4] at hok
        have hout : out = insertCore d rest c := by
          cases hok; rfl
        subst hout
        refine insertCore_tiles htop hd1 hd2 hrest hc hlo hcase hb ?_
        cases rest with
        | nil => exact Or.inl rfl
        | cons u us =>
          refine Or.inr ?_
          obtain ⟨hu1, -, -⟩ := tilesFrom_cons_iff.mp hrest
          have := hbgt u (by simp)
          omega
      · -- c.ptr lies below the whole list: InsertChunk throws, contradiction
        have h0 : upperBound (d :: rest) c.ptr = 0 :=
          upperBound_cons_lt _ (by omega)
        exact absurd hok (by simp [insertChunk, h0])
    · -- the covering chunk lies further right: peel off d and recurse
      cases rest with
      | nil =>
        exfalso
        have := tilesFrom_nil_iff.mp hrest
        omega
      | cons u us =>
        obtain ⟨hu1, -, -⟩ := tilesFrom_cons_iff.mp hrest
        have hup : u.ptr ≤ c.ptr := by omega
        have h2 : upperBound (u :: us) c.ptr ≠ 0 := by
          rw [upperBound_cons_ge _ hup]; simp
        rw [insertChunk_cons (by omega) h2] at hok
        cases hi : insertChunk (u :: us) c with
        | error e => rw [hi] at hok; exact absurd hok (by simp [Except.map])
        | ok out' =>
          rw [hi] at hok
          have hout : out = d :: out' := by
            simp only [Except.map] at hok
            cases hok; rfl
          subst hout
          have hnb2 : noBoundaryIn (u :: us) c.ptr (c.ptr + c.size) = true := by
            rw [noBoundaryIn_iff]
            intro x hx
            exact noBoundaryIn_iff.mp hnb x (by simp [hx])
          exact tilesFrom_cons_iff.mpr ⟨hd1, hd2, ih hrest hnb2 hi⟩

/-- Characterization of a successful InitializeVmm: the address space starts
at 0, its size is one of the two supported widths, and the chunk map is one
Unmapped chunk spanning the whole addressSpace region (not base). -/
theorem initializeVmm_ok {t : AddressSpaceType} {maps : List (Nat × Nat)}
    {r : VmmResult} (h : initializeVmm t maps = .ok r) :
    (r.addressSpace.size = 2 ^ 36 ∨ r.addressSpace.size = 2 ^ 39) ∧
      r.addressSpace.address = 0 ∧
      r.chunks = [⟨0, r.addressSpace.size, statesUnmapped, 0, 0⟩] := by
  cases t with
  | addressSpace32Bit => exact absurd h (by simp [initializeVmm, vmmSizes])
  | addressSpace36Bit =>
    simp only [initializeVmm, vmmSizes] at h
    split at h
    · exact absurd h (by simp)
    · cases h; exact ⟨Or.inl rfl, rfl, rfl⟩
  | addressSpace39Bit =>
    simp only [initializeVmm, vmmSizes] at h
    split at h
    · exact absurd h (by simp)
    · cases h; exact ⟨Or.inr rfl, rfl, rfl⟩

theorem isCompatible_iff {a b : ChunkDescriptor} :
    isCompatible a b = true ↔
      a.state = b.state ∧ a.permission = b.permission ∧ a.attributes = b.attributes := by
  simp [isCompatible, and_assoc]

theorem isCompatible_false_iff {a b : ChunkDescriptor} :
    isCompatible a b = false ↔
      ¬(a.state = b.state ∧ a.permission = b.permission ∧ a.attributes = b.attributes) := by
  rw [← Bool.not_eq_true, isCompatible_iff]

theorem isCompatible_comm (a b : ChunkDescriptor) :
    isCompatible a b = isCompatible b a := by
  rcases h : isCompatible b a with hf | ht
  · rw [isCompatible_false_iff] at h ⊢
    intro ⟨h1, h2, h3⟩
    exact h ⟨h1.symm, h2.symm, h3.symm⟩
  · rw [isCompatible_iff] at h ⊢
    exact ⟨h.1.symm, h.2.1.symm, h.2.2.symm⟩

/-- Inserting into a single-chunk map whose chunk starts at or below the new
chunk reduces to the core case analysis. -/
theorem insertChunk_single {d c : ChunkDescriptor} (h : d.ptr ≤ c.ptr) :
    insertChunk [d] c = .ok (insertCore d [] c) :=
  insertChunk_head h rfl rfl rfl

theorem maximalB_cons_cons_iff {c1 c2 : ChunkDescriptor} {l : List ChunkDescriptor} :
    maximalB (c1 :: c2 :: l) = true ↔
      isCompatible c1 c2 = false ∧ maximalB (c2 :: l) = true := by
  rw [show maximalB (c1 :: c2 :: l) = (!(isCompatible c1 c2) && maximalB (c2 :: l))
    from rfl]
  cases h : isCompatible c1 c2 <;> simp [h]

/-! ### get unfolding lemmas -/

theorem get_cons_lt {d : ChunkDescriptor} {rest : List ChunkDescriptor} {p : Nat}
    (h : p < d.ptr) : get (d :: rest) p = none := by
  simp [get, upperBound_cons_lt _ h]

theorem get_cons_here {d : ChunkDescriptor} {rest : List ChunkDescriptor} {p : Nat}
    (h1 : d.ptr ≤ p) (h2 : upperBound rest p = 0) :
    get (d :: rest) p = if p < add64 d.ptr d.size then some d else none := by
  unfold get
  rw [upperBound_cons_ge _ h1, h2]
  simp [splitLast_single]

theorem get_cons_ge {d : ChunkDescriptor} {rest : List ChunkDescriptor} {p : Nat}
    (h1 : d.ptr ≤ p) (h2 : upperBound rest p ≠ 0) :
    get (d :: rest) p = get rest p := by
  cases rest with
  | nil => exact absurd rfl h2
  | cons u us =>
    have hup : u.ptr ≤ p := by
      by_contra hlt
      exact h2 (upperBound_cons_lt _ (Nat.not_le.mp hlt))
    obtain ⟨pre, lastc, hsl⟩ := splitLast_some u (us.take (upperBound us p))
    unfold get
    rw [upperBound_cons_ge _ h1, upperBound_cons_ge _ hup]
    simp only [Nat.succ_ne_zero, if_false, List.take_succ_cons, splitLast_cons_cons,
      hsl]
    rfl

/-! ## Claim theorems -/

/-- C1, counterexample: in the state reached right after InitializeVmm (an
empty sequence of InsertChunk calls) over the concrete mapping table mapsA,
the single chunk starts at address 0 and ends at 2^36, while base.address is
0x200000 and base ends at 0x4F8200000: the chunk map tiles addressSpace, not
base, so the claim as stated is false. -/
theorem C1_counterexample :
    initializeVmm .addressSpace36Bit mapsA = .ok vmmA ∧
    vmmA.chunks = [⟨0, 2 ^ 36, statesUnmapped, 0, 0⟩] ∧
    vmmA.base.address = 0x200000 ∧
    (0 : Nat) ≠ 0x200000 ∧
    (0 : Nat) + 2 ^ 36 ≠ 0x200000 + 0x4F8000000 := by
  refine ⟨rfl, rfl, rfl, by decide, by decide⟩

/-- C1, amended: for every state reachable from InitializeVmm through
non-throwing InsertChunk calls that have nonzero size, stay within the
addressSpace span, and do not place their right end at or beyond the start
of any following chunk, the chunk map exactly tiles the addressSpace region
(address 0, size 2^36 or 2^39) rather than the base region: the first chunk
starts at addressSpace.address, consecutive chunks meet with no gap or
overlap, and the last chunk ends at addressSpace.address +
addressSpace.size. -/
theorem C1_coverage_amended {t : AddressSpaceType} {maps : List (Nat × Nat)}
    {r : VmmResult} {s : List ChunkDescriptor}
    (hinit : initializeVmm t maps = .ok r)
    (hreach : ReachableSafeFrom r.addressSpace.size r.chunks s) :
    tilesFrom r.addressSpace.address
      (r.addressSpace.address + r.addressSpace.size) s = true := by
  obtain ⟨hsz, haddr, hchunks⟩ := initializeVmm_ok hinit
  have htop : r.addressSpace.size ≤ 2 ^ 62 := by
    rcases hsz with h | h <;> rw [h] <;> norm_num
  rw [haddr, Nat.zero_add]
  induction hreach with
  | init =>
    rw [hchunks]
    refine tilesFrom_cons_iff.mpr ⟨rfl, ?_, tilesFrom_nil_iff.mpr (Nat.zero_add _)⟩
    rcases hsz with h | h <;> rw [h] <;> norm_num
  | step hr hsz' hle hnb hok ih =>
    exact insertChunk_tiles htop ih (by omega) hle hnb hok

/-- C1, witness: the amended coverage theorem applied to the concrete state
right after a 36-bit InitializeVmm over mapsA. -/
theorem C1_coverage_amended_witness :
    tilesFrom vmmA.addressSpace.address
      (vmmA.addressSpace.address + vmmA.addressSpace.size) vmmA.chunks = true :=
  C1_coverage_amended
    (show initializeVmm .addressSpace36Bit mapsA = .ok vmmA from rfl)
    ReachableSafeFrom.init

/-- C2, counterexample: a state reachable after InitializeVmm (36-bit, over
mapsA) and two non-throwing InsertChunk calls contains two adjacent chunks
with identical state, permission and attributes (both Mapped RW), so the
maximality invariant is false for reachable states. -/
theorem C2_counterexample :
    initializeVmm .addressSpace36Bit mapsA = .ok vmmA ∧
    insertChunk chunks36 ⟨0x100, 0x100, 1, 3, 0⟩ =
      .ok [⟨0, 0x100, 0, 0, 0⟩, ⟨0x100, 0x100, 1, 3, 0⟩,
           ⟨0x200, 0xFFFFFFE00, 0, 0, 0⟩] ∧
    insertChunk [⟨0, 0x100, 0, 0, 0⟩, ⟨0x100, 0x100, 1, 3, 0⟩,
        ⟨0x200, 0xFFFFFFE00, 0, 0, 0⟩] ⟨0x200, 0x100, 1, 3, 0⟩ =
      .ok [⟨0, 0x100, 0, 0, 0⟩, ⟨0x100, 0x100, 1, 3, 0⟩, ⟨0x200, 0x100, 1, 3, 0⟩,
           ⟨0x300, 0xFFFFFFD00, 0, 0, 0⟩] ∧
    maximalB [⟨0, 0x100, 0, 0, 0⟩, ⟨0x100, 0x100, 1, 3, 0⟩, ⟨0x200, 0x100, 1, 3, 0⟩,
        ⟨0x300, 0xFFFFFFD00, 0, 0, 0⟩] = false := by
  exact ⟨rfl, rfl, rfl, rfl⟩

/-- C2, amended: maximality is not an invariant of the chunk map (compatible
neighbours produced by the split path are never re-coalesced), but it does
hold for the initial single-chunk map and is established by one InsertChunk
of a chunk incompatible with that initial chunk. -/
theorem C2_maximality_amended {T : Nat} {d c : ChunkDescriptor}
    {out : List ChunkDescriptor}
    (hT : T ≤ 2 ^ 62)
    (hd1 : d.ptr = 0) (hd2 : d.size = T)
    (hcompat : isCompatible c d = false)
    (hc : c.size ≠ 0) (hb : c.ptr + c.size ≤ T)
    (hok : insertChunk [d] c = .ok out) :
    maximalB [d] = true ∧ maximalB out = true := by
  have hM := M64_val
  have h62 := pow62_val
  have hcd : ¬(c.state = d.state ∧ c.permission = d.permission ∧
      c.attributes = d.attributes) := isCompatible_false_iff.mp hcompat
  refine ⟨rfl, ?_⟩
  rw [insertChunk_single (by omega)] at hok
  have hout : out = insertCore d [] c := by cases hok; rfl
  subst hout
  have hbb : add64 c.ptr c.size = c.ptr + c.size := add64_eq (by omega)
  have hee : add64 d.ptr d.size = T := by
    rw [hd1, hd2, add64_eq (by omega), Nat.zero_add]
  have hsub1 : sub64 c.ptr d.ptr = c.ptr := by
    rw [hd1, sub64_eq (Nat.zero_le _) (by omega), Nat.sub_zero]
  unfold insertCore
  simp only [hbb, hee, hsub1]
  by_cases hexact : d.ptr = c.ptr ∧ d.size = c.size
  · rw [if_pos hexact]; rfl
  · rw [if_neg hexact]
    by_cases hsplit : c.ptr + c.size < T
    · rw [if_pos hsplit]
      by_cases hzero : c.ptr ≠ 0
      · rw [if_pos hzero]
        refine maximalB_cons_cons_iff.mpr ⟨?_, maximalB_cons_cons_iff.mpr ⟨?_, rfl⟩⟩
        · rw [isCompatible_false_iff]
          intro ⟨h1, h2, h3⟩
          exact hcd ⟨h1.symm, h2.symm, h3.symm⟩
        · rw [isCompatible_false_iff]
          intro h
          exact hcd h
      · rw [if_neg hzero]
        refine maximalB_cons_cons_iff.mpr ⟨?_, rfl⟩
        rw [isCompatible_false_iff]
        intro h
        exact hcd h
    · rw [if_neg hsplit, if_neg (by rw [hcompat]; exact Bool.false_ne_true)]
      have hlt : c.ptr < T := by omega
      rw [if_pos hlt]
      refine maximalB_cons_cons_iff.mpr ⟨?_, rfl⟩
      rw [isCompatible_false_iff]
      intro ⟨h1, h2, h3⟩
      exact hcd ⟨h1.symm, h2.symm, h3.symm⟩

/-- C2, witness: the amended maximality theorem applied to the initial map of
the spec example and the first example insert. -/
theorem C2_maximality_amended_witness :
    maximalB exampleMap0 = true ∧ maximalB exampleMap1 = true :=
  C2_maximality_amended (show (0x1000 : Nat) ≤ 2 ^ 62 by norm_num) rfl rfl
    (by decide) (by decide) (by decide)
    (show insertChunk exampleMap0 exampleIns1 = .ok exampleMap1 from rfl)

/-- C3, counterexample: running the exact example of the claim (single
Unmapped chunk over 0x0..0x1000, insert Mapped RW 0x100..0x200, then Mapped
RW 0x200..0x300) produces four chunks with the two Mapped ranges left
unmerged, not the three-chunk merged map the claim asserts. -/
theorem C3_counterexample :
    insertChunk exampleMap0 exampleIns1 = .ok exampleMap1 ∧
    insertChunk exampleMap1 exampleIns2 = .ok exampleMap2 ∧
    exampleMap2 ≠ exampleMap2Spec := by
  exact ⟨rfl, rfl, by decide⟩

/-- C3, amended: inserting a chunk compatible with the chunk on its left
does not merge with it when the chunk covering the inserted range extends
past the range end (the split path runs first and performs no coalescing):
on the example of the claim the result is the four-chunk map with the
inserted chunk standalone, adjacent and compatible to its left neighbour. -/
theorem C3_merge_amended :
    insertChunk exampleMap1 exampleIns2 = .ok exampleMap2 ∧
    exampleMap2.length = 4 ∧
    isCompatible ⟨0x100, 0x100, 1, 3, 0⟩ ⟨0x200, 0x100, 1, 3, 0⟩ = true ∧
    get exampleMap2 0x100 = some ⟨0x100, 0x100, 1, 3, 0⟩ ∧
    get exampleMap2 0x200 = some ⟨0x200, 0x100, 1, 3, 0⟩ := by
  exact ⟨rfl, rfl, rfl, rfl, rfl⟩

/-- C4, counterexample: inserting a chunk identical in range and
classification to the middle chunk of a three-chunk map erases the following
chunk entirely (the erase on line 112 of memory.cpp swallows the chunk whose
start equals the inserted range end), so the map is not left unchanged. -/
theorem C4_counterexample :
    insertChunk exampleMap1 ⟨0x100, 0x100, 1, 3, 0⟩ =
      .ok [⟨0, 0x100, 0, 0, 0⟩, ⟨0x100, 0x100, 1, 3, 0⟩] ∧
    [⟨0, 0x100, 0, 0, 0⟩, ⟨0x100, 0x100, 1, 3, 0⟩] ≠ exampleMap1 := by
  exact ⟨rfl, by decide⟩

/-- C4, amended: the idempotent retag holds only when the retagged chunk is
the final chunk of the map: inserting a chunk identical to the last chunk
(every other chunk starting at or before it) leaves the entire map
unchanged.  For any non-final chunk the immediately following chunk is
erased, as the counterexample shows. -/
theorem C4_retag_amended {pre : List ChunkDescriptor} {c : ChunkDescriptor}
    (h : ∀ d ∈ pre, d.ptr ≤ c.ptr) :
    insertChunk (pre ++ [c]) c = .ok (pre ++ [c]) := by
  have hub : upperBound (pre ++ [c]) c.ptr = (pre ++ [c]).length := by
    refine upperBound_eq_length ?_
    intro d hd
    rcases List.mem_append.mp hd with hd | hd
    · exact h d hd
    · rcases List.mem_singleton.mp hd with rfl
      exact le_refl _
  unfold insertChunk
  rw [hub, if_neg (by simp : ¬(pre ++ [c]).length = 0), List.take_length,
    List.drop_length]
  simp only [upperBound, List.drop_zero, truncateUpper, splitLast_concat]
  unfold insertCore
  rw [if_pos ⟨rfl, rfl⟩]

/-- C4, witness: the amended retag theorem applied to a concrete two-chunk
map whose last chunk is re-inserted unchanged. -/
theorem C4_retag_amended_witness :
    insertChunk ([⟨0, 0x100, 0, 0, 0⟩] ++ [⟨0x100, 0xF00, 1, 3, 0⟩])
      ⟨0x100, 0xF00, 1, 3, 0⟩ =
      .ok ([⟨0, 0x100, 0, 0, 0⟩] ++ [⟨0x100, 0xF00, 1, 3, 0⟩]) :=
  C4_retag_amended (by decide)

/-- C5, confirmed: over any chunk map tiling the span from lo to top (in
particular base when the map satisfies the claimed invariants), Get returns
the unique chunk whose range contains the queried address for every address
inside the span, and none for every address outside it. -/
theorem C5_get_confirmed {chunks : List ChunkDescriptor} {lo top p : Nat}
    (htop : top ≤ 2 ^ 62)
    (ht : tilesFrom lo top chunks = true) :
    (lo ≤ p → p < top →
      ∃ ch, get chunks p = some ch ∧ ch ∈ chunks ∧ ch.ptr ≤ p ∧
        p < ch.ptr + ch.size ∧
        ∀ ch2 ∈ chunks, ch2.ptr ≤ p → p < ch2.ptr + ch2.size → ch2 = ch) ∧
    (¬(lo ≤ p ∧ p < top) → get chunks p = none) := by
  have hM := M64_val
  have h62 := pow62_val
  induction chunks generalizing lo with
  | nil =>
    have hlt := tilesFrom_nil_iff.mp ht
    exact ⟨fun h1 h2 => absurd (lt_of_le_of_lt h1 h2) (by omega), fun _ => rfl⟩
  | cons d rest ih =>
    obtain ⟨hd1, hd2, hrest⟩ := tilesFrom_cons_iff.mp ht
    have hetop : lo + d.size ≤ top := tilesFrom_le_top hrest
    have hde : add64 d.ptr d.size = lo + d.size := by
      rw [hd1]; exact add64_eq (by omega)
    by_cases hp : p < lo
    · refine ⟨fun h1 _ => absurd h1 (by omega), fun _ => get_cons_lt (by omega)⟩
    · by_cases hcov : p < lo + d.size
      · have h2 : upperBound rest p = 0 := by
          cases rest with
          | nil => rfl
          | cons u us =>
            obtain ⟨hu1, -, -⟩ := tilesFrom_cons_iff.mp hrest
            exact upperBound_cons_lt _ (by omega)
        have hg : get (d :: rest) p = some d := by
          rw [get_cons_here (by omega) h2, hde, if_pos (by omega)]
        constructor
        · intro h1 hlt
          refine ⟨d, hg, by simp, by omega, by omega, ?_⟩
          intro ch2 hch2 hc1 hc2
          rcases List.mem_cons.mp hch2 with rfl | hm
          · rfl
          · have := tilesFrom_mem_lo hrest ch2 hm
            exact absurd hc1 (by omega)
        · intro hn
          exact absurd ⟨by omega, by omega⟩ hn
      · cases rest with
        | nil =>
          have htopeq := tilesFrom_nil_iff.mp hrest
          refine ⟨fun _ h2 => absurd h2 (by omega), fun _ => ?_⟩
          rw [get_cons_here (by omega)
            (show upperBound ([] : List ChunkDescriptor) p = 0 from rfl),
            hde, if_neg (by omega)]
        | cons u us =>
          obtain ⟨hu1, -, -⟩ := tilesFrom_cons_iff.mp hrest
          have h2 : upperBound (u :: us) p ≠ 0 := by
            rw [upperBound_cons_ge _ (by omega)]; simp
          have hg : get (d :: u :: us) p = get (u :: us) p :=
            get_cons_ge (by omega) h2
          have IH := ih hrest
          constructor
          · intro h1 h2'
            obtain ⟨ch, hget, hmem, hc1, hc2, huniq⟩ := IH.1 (by omega) h2'
            refine ⟨ch, by rw [hg]; exact hget, by simp [hmem], hc1, hc2, ?_⟩
            intro ch2 hch2 hq1 hq2
            rcases List.mem_cons.mp hch2 with rfl | hm
            · exact absurd hq2 (by omega)
            · exact huniq ch2 hm hq1 hq2
          · intro hn
            rw [hg]
            refine IH.2 ?_
            intro ⟨ha, hb⟩
            exact hn ⟨by omega, hb⟩

/-- C5, witness: the query theorem applied to the concrete three-chunk map of
the example scenario at an inside address. -/
theorem C5_get_confirmed_witness :
    (0 ≤ (0x150 : Nat) → (0x150 : Nat) < 0x1000 →
      ∃ ch, get exampleMap1 0x150 = some ch ∧ ch ∈ exampleMap1 ∧ ch.ptr ≤ 0x150 ∧
        (0x150 : Nat) < ch.ptr + ch.size ∧
        ∀ ch2 ∈ exampleMap1, ch2.ptr ≤ 0x150 → (0x150 : Nat) < ch2.ptr + ch2.size →
          ch2 = ch) ∧
    (¬((0 : Nat) ≤ 0x150 ∧ (0x150 : Nat) < 0x1000) → get exampleMap1 0x150 = none) :=
  C5_get_confirmed (show (0x1000 : Nat) ≤ 2 ^ 62 by norm_num)
    (show tilesFrom 0 0x1000 exampleMap1 = true from rfl)

/-- Inserting into a nonempty map whose first chunk starts at or below the
new chunk never throws. -/
theorem insertChunk_ok_of_ge {d : ChunkDescriptor} {rest : List ChunkDescriptor}
    {c : ChunkDescriptor} (h : d.ptr ≤ c.ptr) :
    ∃ out, insertChunk (d :: rest) c = .ok out := by
  unfold insertChunk
  rw [upperBound_cons_ge _ h]
  obtain ⟨pre, lastc, hsl⟩ :=
    splitLast_some d (rest.take (upperBound rest c.ptr))
  simp only [Nat.succ_ne_zero, if_false, List.take_succ_cons, hsl]
  exact ⟨_, rfl⟩

/-- C6, counterexample: after InitializeVmm (36-bit over mapsA) the call
InsertChunk with range 0x1000..0x2000 lies entirely outside the tracked base
span (which starts at 0x200000), yet it does not fail and it changes the
map, so the claim as stated is false. -/
theorem C6_counterexample :
    initializeVmm .addressSpace36Bit mapsA = .ok vmmA ∧
    0x1000 + 0x1000 ≤ vmmA.base.address ∧
    insertChunk vmmA.chunks ⟨0x1000, 0x1000, 1, 3, 0⟩ =
      .ok [⟨0, 0x1000, 0, 0, 0⟩, ⟨0x1000, 0x1000, 1, 3, 0⟩,
           ⟨0x2000, 0xFFFFFE000, 0, 0, 0⟩] ∧
    [⟨0, 0x1000, 0, 0, 0⟩, ⟨0x1000, 0x1000, 1, 3, 0⟩,
     ⟨0x2000, 0xFFFFFE000, 0, 0, 0⟩] ≠ vmmA.chunks := by
  exact ⟨rfl, by decide, rfl, by decide⟩

/-- C6, amended: InsertChunk fails fatally exactly when the inserted range
starts strictly below the start of the first tracked chunk (in which case
the map is untouched, the throw happening before any mutation); a range
merely outside base — but at or above the first chunk start — is accepted
and mutates the map, and a range extending past the tracked span does not
fail either. -/
theorem C6_outside_amended (d : ChunkDescriptor) (rest : List ChunkDescriptor)
    (c : ChunkDescriptor) :
    (∃ e, insertChunk (d :: rest) c = .error e) ↔ c.ptr < d.ptr := by
  constructor
  · rintro ⟨e, he⟩
    by_contra hge
    obtain ⟨out, hok⟩ := insertChunk_ok_of_ge (Nat.not_lt.mp hge)
    rw [hok] at he
    cases he
  · intro hlt
    refine ⟨"InsertChunk: Chunk inserted outside address space", ?_⟩
    unfold insertChunk
    rw [upperBound_cons_lt _ hlt]
    rfl

theorem pow40_val : (2 : Nat) ^ 40 = 1099511627776 := by norm_num

/-- Shape of the member state after a successful 36-bit InitializeRegions:
note that stack is assigned the same region as aliasRegion. -/
theorem initializeRegions36_ok {A a s : Nat} {st : RegionsState}
    (hb : A ≤ 2 ^ 40)
    (h : initializeRegions regionsInit (2 ^ 36) A a s = (none, st)) :
    st = ⟨⟨A, 0x78000000⟩, ⟨A + 0x78000000, 0x180000000⟩,
          ⟨A + 0x78000000 + 0x180000000, 0x180000000⟩,
          ⟨A + 0x78000000, 0x180000000⟩, ⟨A, 0⟩⟩ := by
  have hM := M64_val
  have h40 := pow40_val
  have e1 : add64 A 0x78000000 = A + 0x78000000 := add64_eq (by omega)
  have e2 : add64 (A + 0x78000000) 0x180000000 = A + 0x78000000 + 0x180000000 :=
    add64_eq (by omega)
  unfold initializeRegions at h
  rw [if_pos rfl] at h
  dsimp only at h
  split at h
  · exact absurd (congrArg Prod.fst h) (by simp)
  · split at h
    · exact absurd (congrArg Prod.fst h) (by simp)
    · have hst := congrArg Prod.snd h
      dsimp at hst
      rw [e1, e2] at hst
      exact hst.symm

/-- Shape of the member state after a successful 39-bit InitializeRegions:
the five sub-regions are laid out consecutively from base.address. -/
theorem initializeRegions39_ok {A a s : Nat} {st : RegionsState}
    (hb : A ≤ 2 ^ 40)
    (h : initializeRegions regionsInit (2 ^ 39) A a s = (none, st)) :
    st = ⟨⟨A, 0x78000000⟩, ⟨A + 0x78000000, 0x1000000000⟩,
          ⟨A + 0x1078000000, 0x180000000⟩,
          ⟨A + 0x11F8000000, 0x80000000⟩,
          ⟨A + 0x1278000000, 0x1000000000⟩⟩ := by
  have hM := M64_val
  have h40 := pow40_val
  have e1 : add64 A 0x78000000 = A + 0x78000000 := add64_eq (by omega)
  have e2 : add64 (A + 0x78000000) 0x1000000000 = A + 0x1078000000 :=
    (add64_eq (by omega)).trans (by omega)
  have e3 : add64 (A + 0x1078000000) 0x180000000 = A + 0x11F8000000 :=
    (add64_eq (by omega)).trans (by omega)
  have e4 : add64 (A + 0x11F8000000) 0x80000000 = A + 0x1278000000 :=
    (add64_eq (by omega)).trans (by omega)
  unfold initializeRegions at h
  rw [if_neg (by norm_num), if_pos rfl] at h
  dsimp only at h
  split at h
  · exact absurd (congrArg Prod.fst h) (by simp)
  · have hst := congrArg Prod.snd h
    dsimp at hst
    rw [e1, e2, e3, e4] at hst
    exact hst.symm

/-- C7, counterexample: a successful 36-bit InitializeRegions produces a
stack sub-region identical to the alias sub-region, so the five named
sub-regions are not pairwise non-overlapping and the claim as stated is
false. -/
theorem C7_counterexample :
    initializeRegions regionsInit (2 ^ 36) 0x200000 0x200000 0x1000 =
      (none, ⟨⟨0x200000, 0x78000000⟩, ⟨0x78200000, 0x180000000⟩,
              ⟨0x1F8200000, 0x180000000⟩, ⟨0x78200000, 0x180000000⟩,
              ⟨0x200000, 0⟩⟩) ∧
    regionDisjoint ⟨0x78200000, 0x180000000⟩ ⟨0x78200000, 0x180000000⟩ = false := by
  exact ⟨rfl, by decide⟩

/-- C7, amended: after a successful InitializeRegions the five named
sub-regions are pairwise non-overlapping and contained in base for the
39-bit profile; for the 36-bit profile the same holds except that the stack
sub-region coincides exactly with the alias sub-region (they fully overlap),
every other pair being disjoint and all five being contained in base. -/
theorem C7_layout_amended {A a s : Nat} {st36 st39 : RegionsState}
    (hb : A ≤ 2 ^ 40)
    (h36 : initializeRegions regionsInit (2 ^ 36) A a s = (none, st36))
    (h39 : initializeRegions regionsInit (2 ^ 39) A a s = (none, st39)) :
    (regionDisjoint st39.code st39.aliasRegion = true ∧
     regionDisjoint st39.code st39.heap = true ∧
     regionDisjoint st39.code st39.stack = true ∧
     regionDisjoint st39.code st39.tlsIo = true ∧
     regionDisjoint st39.aliasRegion st39.heap = true ∧
     regionDisjoint st39.aliasRegion st39.stack = true ∧
     regionDisjoint st39.aliasRegion st39.tlsIo = true ∧
     regionDisjoint st39.heap st39.stack = true ∧
     regionDisjoint st39.heap st39.tlsIo = true ∧
     regionDisjoint st39.stack st39.tlsIo = true ∧
     regionContained st39.code ⟨A, 0x2278000000⟩ = true ∧
     regionContained st39.aliasRegion ⟨A, 0x2278000000⟩ = true ∧
     regionContained st39.heap ⟨A, 0x2278000000⟩ = true ∧
     regionContained st39.stack ⟨A, 0x2278000000⟩ = true ∧
     regionContained st39.tlsIo ⟨A, 0x2278000000⟩ = true) ∧
    (st36.stack = st36.aliasRegion ∧
     regionDisjoint st36.aliasRegion st36.stack = false ∧
     regionDisjoint st36.code st36.aliasRegion = true ∧
     regionDisjoint st36.code st36.heap = true ∧
     regionDisjoint st36.code st36.tlsIo = true ∧
     regionDisjoint st36.aliasRegion st36.heap = true ∧
     regionDisjoint st36.aliasRegion st36.tlsIo = true ∧
     regionDisjoint st36.heap st36.tlsIo = true ∧
     regionContained st36.code ⟨A, 0x4F8000000⟩ = true ∧
     regionContained st36.aliasRegion ⟨A, 0x4F8000000⟩ = true ∧
     regionContained st36.heap ⟨A, 0x4F8000000⟩ = true ∧
     regionContained st36.stack ⟨A, 0x4F8000000⟩ = true ∧
     regionContained st36.tlsIo ⟨A, 0x4F8000000⟩ = true) := by
  have hs36 := initializeRegions36_ok hb h36
  have hs39 := initializeRegions39_ok hb h39
  subst hs36
  subst hs39
  refine ⟨⟨?_, ?_, ?_, ?_, ?_, ?_, ?_, ?_, ?_, ?_, ?_, ?_, ?_, ?_, ?_⟩,
    ?_, ?_, ?_, ?_, ?_, ?_, ?_, ?_, ?_, ?_, ?_, ?_, ?_⟩ <;>
    first
    | (simp only [regionDisjoint, regionContained, Bool.or_eq_true,
        Bool.and_eq_true, Bool.or_eq_false_iff, decide_eq_true_eq,
        decide_eq_false_iff_not]
       omega)
    | rfl

/-- C7, witness: the amended layout theorem applied at concrete inputs for
which both profiles succeed. -/
theorem C7_layout_amended_witness :
    (regionDisjoint st39A.code st39A.aliasRegion = true ∧
     regionDisjoint st39A.code st39A.heap = true ∧
     regionDisjoint st39A.code st39A.stack = true ∧
     regionDisjoint st39A.code st39A.tlsIo = true ∧
     regionDisjoint st39A.aliasRegion st39A.heap = true ∧
     regionDisjoint st39A.aliasRegion st39A.stack = true ∧
     regionDisjoint st39A.aliasRegion st39A.tlsIo = true ∧
     regionDisjoint st39A.heap st39A.stack = true ∧
     regionDisjoint st39A.heap st39A.tlsIo = true ∧
     regionDisjoint st39A.stack st39A.tlsIo = true ∧
     regionContained st39A.code ⟨0x200000, 0x2278000000⟩ = true ∧
     regionContained st39A.aliasRegion ⟨0x200000, 0x2278000000⟩ = true ∧
     regionContained st39A.heap ⟨0x200000, 0x2278000000⟩ = true ∧
     regionContained st39A.stack ⟨0x200000, 0x2278000000⟩ = true ∧
     regionContained st39A.tlsIo ⟨0x200000, 0x2278000000⟩ = true) ∧
    (st36A.stack = st36A.aliasRegion ∧
     regionDisjoint st36A.aliasRegion st36A.stack = false ∧
     regionDisjoint st36A.code st36A.aliasRegion = true ∧
     regionDisjoint st36A.code st36A.heap = true ∧
     regionDisjoint st36A.code st36A.tlsIo = true ∧
     regionDisjoint st36A.aliasRegion st36A.heap = true ∧
     regionDisjoint st36A.aliasRegion st36A.tlsIo = true ∧
     regionDisjoint st36A.heap st36A.tlsIo = true ∧
     regionContained st36A.code ⟨0x200000, 0x4F8000000⟩ = true ∧
     regionContained st36A.aliasRegion ⟨0x200000, 0x4F8000000⟩ = true ∧
     regionContained st36A.heap ⟨0x200000, 0x4F8000000⟩ = true ∧
     regionContained st36A.stack ⟨0x200000, 0x4F8000000⟩ = true ∧
     regionContained st36A.tlsIo ⟨0x200000, 0x4F8000000⟩ = true) :=
  C7_layout_amended (show (0x200000 : Nat) ≤ 2 ^ 40 by norm_num)
    (show initializeRegions regionsInit (2 ^ 36) 0x200000 0x200000 0x1000 =
      (none, st36A) from rfl)
    (show initializeRegions regionsInit (2 ^ 39) 0x200000 0x200000 0x1000 =
      (none, st39A) from rfl)

/-- C8, counterexample: under the 39-bit profile a code start address far
below the code sub-region start (0x1000 versus base.address 0x200000)
passes InitializeRegions without any fatal error, because the 39-bit branch
validates only the total size, so the claim as stated (validation in both
width profiles) is false. -/
theorem C8_counterexample :
    (initializeRegions regionsInit (2 ^ 39) 0x200000 0x1000 0x1000).1 = none ∧
    (0x1000 : Nat) < 0x200000 := by
  exact ⟨rfl, by decide⟩

/-- C8, amended: code-range validation is profile-dependent.  Under the
39-bit profile InitializeRegions fails exactly when the code size exceeds
the fixed code capacity 0x78000000, with the code start address never
checked.  Under the 36-bit profile a code start below the code sub-region
start is fatal, and for a start inside the sub-region failure occurs
exactly when the size exceeds the remaining capacity.  (A partially
assigned layout does remain on the 36-bit failure path: the code region is
written before the check.) -/
theorem C8_codeRange_amended {A a s : Nat} (hb : A ≤ 2 ^ 40) :
    ((initializeRegions regionsInit (2 ^ 39) A a s).1.isSome ↔ 0x78000000 < s) ∧
    (a < A → (initializeRegions regionsInit (2 ^ 36) A a s).1.isSome) ∧
    (A ≤ a → a - A ≤ 0x78000000 →
      ((initializeRegions regionsInit (2 ^ 36) A a s).1.isSome ↔
        0x78000000 - (a - A) < s)) := by
  have hM := M64_val
  have h40 := pow40_val
  refine ⟨?_, ?_, ?_⟩
  · unfold initializeRegions
    rw [if_neg (by norm_num), if_pos rfl]
    dsimp only
    by_cases hs : (0x78000000 : Nat) < s
    · rw [if_pos hs]; simpa using hs
    · rw [if_neg hs]; simpa using hs
  · intro hlt
    unfold initializeRegions
    rw [if_pos rfl]
    dsimp only
    rw [if_pos (Or.inl hlt)]
    rfl
  · intro hge hoff
    have s1 : sub64 a A = a - A := sub64_eq hge (by omega)
    have s2 : sub64 0x78000000 (a - A) = 0x78000000 - (a - A) :=
      sub64_eq hoff (by omega)
    unfold initializeRegions
    rw [if_pos rfl]
    dsimp only
    rw [s1, s2]
    by_cases hcap : (0x78000000 : Nat) - (a - A) < s
    · rw [if_pos (Or.inr hcap)]
      simpa using hcap
    · rw [if_neg (by omega : ¬(a < A ∨ 0x78000000 - (a - A) < s)),
        if_neg (by omega : ¬((0x78000000 : Nat) < s))]
      simpa using hcap

/-- C8, witness: the amended validation theorem applied at concrete inputs
(base.address 0x200000, code start 0x300000, size 0x1000). -/
theorem C8_codeRange_amended_witness :
    ((initializeRegions regionsInit (2 ^ 39) 0x200000 0x300000 0x1000).1.isSome ↔
      (0x78000000 : Nat) < 0x1000) ∧
    ((0x300000 : Nat) < 0x200000 →
      (initializeRegions regionsInit (2 ^ 36) 0x200000 0x300000 0x1000).1.isSome) ∧
    ((0x200000 : Nat) ≤ 0x300000 → (0x300000 : Nat) - 0x200000 ≤ 0x78000000 →
      ((initializeRegions regionsInit (2 ^ 36) 0x200000 0x300000 0x1000).1.isSome ↔
        (0x78000000 : Nat) - (0x300000 - 0x200000) < 0x1000)) :=
  C8_codeRange_amended (show (0x200000 : Nat) ≤ 2 ^ 40 by norm_num)

/-! ### Carveout scan lemmas -/

theorem pow21_val : (2 : Nat) ^ 21 = 2097152 := by norm_num

theorem alignUp2M_ge (x : Nat) : x ≤ alignUp2M x := by
  have h21 := pow21_val
  unfold alignUp2M
  rw [h21]
  omega

theorem alignUp2M_le (x : Nat) : alignUp2M x ≤ x + 2 ^ 21 := by
  have h21 := pow21_val
  unfold alignUp2M
  rw [h21]
  omega

theorem alignUp2M_zero : alignUp2M 0 = 0 := by
  have h21 := pow21_val
  unfold alignUp2M
  rw [h21]

theorem alignUp64_eq_2M {x : Nat} (h : x ≤ 2 ^ 62) :
    alignUp64 x (2 ^ 21) = alignUp2M x := by
  have h21 := pow21_val
  have hM := M64_val
  have h62 := pow62_val
  unfold alignUp64 alignUp2M
  rw [Nat.mod_eq_of_lt (by omega)]

theorem ascendingMapsB_cons {prev mS mE : Nat} {rest : List (Nat × Nat)} :
    ascendingMapsB prev ((mS, mE) :: rest) = true ↔
      prev ≤ mS ∧ mS ≤ mE ∧ ascendingMapsB mE rest = true := by
  simp [ascendingMapsB, and_assoc]

theorem mapsBoundedB_cons {mS mE : Nat} {rest : List (Nat × Nat)} :
    mapsBoundedB ((mS, mE) :: rest) = true ↔
      mS ≤ 2 ^ 62 ∧ mE ≤ 2 ^ 62 ∧ mapsBoundedB rest = true := by
  simp [mapsBoundedB, and_assoc]

/-- The faithful wrapped-arithmetic scan of InitializeVmm coincides with the
plain first-fit description whenever the mapping table is ascending and its
addresses stay well below the u64 wrap. -/
theorem carveoutScan_eq_firstFit {baseSize asSize : Nat}
    {maps : List (Nat × Nat)} {prev al : Nat}
    (hbs : baseSize ≤ 2 ^ 62) (hprev : prev ≤ 2 ^ 62) (hal : al = alignUp2M prev)
    (hasc : ascendingMapsB prev maps = true) (hbd : mapsBoundedB maps = true) :
    carveoutScan baseSize asSize maps prev al =
      firstFit baseSize asSize maps prev := by
  induction maps generalizing prev al with
  | nil => rfl
  | cons m rest ih =>
    obtain ⟨mS, mE⟩ := m
    obtain ⟨h1, h2, hasc2⟩ := ascendingMapsB_cons.mp hasc
    obtain ⟨hb1, hb2, hbd2⟩ := mapsBoundedB_cons.mp hbd
    have hM := M64_val
    have h62 := pow62_val
    have h21 := pow21_val
    have halge : prev ≤ al := hal ▸ alignUp2M_ge prev
    have halle : al ≤ prev + 2 ^ 21 := hal ▸ alignUp2M_le prev
    have hsub1 : sub64 mS prev = mS - prev := sub64_eq h1 (by omega)
    have hsub2 : sub64 al prev = al - prev := sub64_eq halge (by omega)
    have hadd : add64 baseSize (al - prev) = baseSize + (al - prev) :=
      add64_eq (by omega)
    have halE : alignUp64 mE (2 ^ 21) = alignUp2M mE := alignUp64_eq_2M hb2
    have halEle : alignUp2M mE ≤ mE + 2 ^ 21 := alignUp2M_le mE
    have haddc : add64 (alignUp2M mE) baseSize = alignUp2M mE + baseSize :=
      add64_eq (by omega)
    simp only [carveoutScan, firstFit]
    rw [hsub1, hsub2, hadd, halE, haddc]
    by_cases hgap : alignUp2M prev + baseSize < mS
    · rw [if_pos (by omega : baseSize + (al - prev) < mS - prev),
        if_pos hgap, hal]
    · rw [if_neg (by omega : ¬(baseSize + (al - prev) < mS - prev)),
        if_neg hgap]
      by_cases hceil : asSize < alignUp2M mE + baseSize
      · rw [if_pos hceil, if_pos hceil]
      · rw [if_neg hceil, if_neg hceil]
        exact ih hb2 rfl hasc2 hbd2

/-- C9, counterexample: over mapsB the gap following the first mapping runs
from the aligned address 0x200000 up to 0x4F8200000 and can hold the
required 36-bit base size exactly, yet InitializeVmm skips it (the scan
demands a strictly larger gap) and selects the later gap at 0x4F8400000, so
the claim as stated is false. -/
theorem C9_counterexample :
    initializeVmm .addressSpace36Bit mapsB =
      .ok ⟨⟨0, 2 ^ 36⟩, ⟨0x4F8400000, 0x4F8000000⟩, chunks36⟩ ∧
    alignUp2M 0x200000 + 0x4F8000000 ≤ 0x4F8200000 ∧
    (0x4F8400000 : Nat) ≠ alignUp2M 0x200000 := by
  refine ⟨rfl, by decide, by decide⟩

/-- C9, amended: with the mapping table ascending and bounded, InitializeVmm
behaves exactly as the first-fit description with a strict inequality: it
selects the 2 MiB aligned-up end of the first gap that is strictly larger
than the required base size (an exact fit is skipped), rejects a candidate
whose aligned start plus the base size passes the addressable ceiling
(aborting the scan), and fails with the fatal carveout error when no gap is
selected or when the selected aligned start is address 0. -/
theorem C9_carveout_amended {t : AddressSpaceType} {asSize bSize : Nat}
    {maps : List (Nat × Nat)}
    (hv : vmmSizes t = .ok (asSize, bSize))
    (hasc : ascendingMapsB 0 maps = true) (hbd : mapsBoundedB maps = true) :
    initializeVmm t maps = initializeVmmSpec asSize bSize maps := by
  have hbs : bSize ≤ 2 ^ 62 := by
    cases t <;> simp [vmmSizes] at hv <;> omega
  have hscan : carveoutScan bSize asSize maps 0 0 = firstFit bSize asSize maps 0 :=
    carveoutScan_eq_firstFit hbs (by norm_num) alignUp2M_zero.symm hasc hbd
  unfold initializeVmm initializeVmmSpec
  rw [hv]
  dsimp only
  rw [hscan]
  cases hff : firstFit bSize asSize maps 0 with
  | none => rfl
  | some x =>
    by_cases hx : x = 0
    · subst hx; rfl
    · simp only [Option.getD_some, if_neg hx]

/-- C9, witness: the amended carveout theorem applied to the 36-bit profile
over mapsB. -/
theorem C9_carveout_amended_witness :
    initializeVmm .addressSpace36Bit mapsB =
      initializeVmmSpec (2 ^ 36) 0x4F8000000 mapsB :=
  C9_carveout_amended (show vmmSizes .addressSpace36Bit =
    .ok (2 ^ 36, 0x4F8000000) from rfl) (by decide) (by decide)

/-- C10, confirmed: whenever the scan selects a gap whose aligned start is
address 0, InitializeVmm throws the fatal carveout exception even though a
suitable gap was found, because success is detected solely by base.address
being nonzero. -/
theorem C10_zero_sentinel {t : AddressSpaceType} {asSize bSize : Nat}
    {maps : List (Nat × Nat)}
    (hv : vmmSizes t = .ok (asSize, bSize))
    (hscan : carveoutScan bSize asSize maps 0 0 = some 0) :
    initializeVmm t maps =
      .error "Cannot find a suitable carveout for the guest address space" := by
  unfold initializeVmm
  rw [hv]
  dsimp only
  rw [hscan]
  rfl

/-- C10, witness: over mapsC the very first gap (below the first mapping) is
suitable and its aligned start is 0; InitializeVmm throws the carveout
error. -/
theorem C10_zero_sentinel_witness :
    initializeVmm .addressSpace36Bit mapsC =
      .error "Cannot find a suitable carveout for the guest address space" :=
  C10_zero_sentinel (show vmmSizes .addressSpace36Bit =
    .ok (2 ^ 36, 0x4F8000000) from rfl)
    (show carveoutScan 0x4F8000000 (2 ^ 36) mapsC 0 0 = some 0 from rfl)

end Skyline
